import Mathlib

/-!
Shallow embedding of the numeric primitives of the repository
`Kyrylo-Ktl/Distributed-Lab` (files `src/Cryptography/snippets.py`,
`src/Cryptography/practical_task_1.py` and
`src/Blockchain and Decentralized Technologies/large_numbers.py`),
together with theorems settling the frozen claims about them.

Python integers are arbitrary precision, so they are modelled by `Int`
(`Nat` where a value is a count or an index).  Python's `%` and `//` on a
positive right operand agree with Lean's `Int.emod` / `Int.ediv` (both
yield the representative in `[0, b)`), and every modulus and divisor the
embedded code applies them to is positive on the paths the claims
exercise.  `math.isqrt n` on `n ≥ 0` is `Nat.sqrt`.  Randomness
(`random.randint`, `secrets.token_hex`) is modelled by passing the drawn
values explicitly; wall-clock time (the `return_time` decorator) has no
shallow embedding and is left out.
-/

namespace DLab

/-- Embedding of `gcd(a, b)` from `src/Cryptography/snippets.py`:
`while b: a, b = b, a % b` then `return a`. -/
def gcd (a b : Int) : Int :=
  if h' : b = 0 then a else gcd b (a % b)
termination_by b.natAbs
decreasing_by
  have h1 : 0 ≤ a % b := Int.emod_nonneg a h'
  have h4 : a % (b.natAbs : Int) = a % b := by
    rcases Int.natAbs_eq b with hb | hb
    · conv_rhs => rw [hb]
    · conv_rhs => rw [hb, Int.emod_neg]
  have h3 : a % (b.natAbs : Int) < (b.natAbs : Int) := Int.emod_lt_of_pos a (by omega)
  omega

/-- Embedding of the `while n > 0` loop of `bin_pow(x, n, mod)` from
`src/Cryptography/snippets.py`, with the running accumulator `power`
made an explicit argument.  When `n % 2` is truthy the loop multiplies
the accumulator and decrements `n`, otherwise it squares `x` and halves
`n`; on exit it returns `power % mod`. -/
def bin_pow_loop (power x n mod : Int) : Int :=
  if 0 < n then
    if n % 2 = 1 then bin_pow_loop ((power * x) % mod) x (n - 1) mod
    else bin_pow_loop power ((x ^ 2) % mod) (n / 2) mod
  else power % mod
termination_by n.toNat
decreasing_by
  · omega
  · omega

/-- Embedding of `bin_pow(x, n, mod)` from `src/Cryptography/snippets.py`:
`power = 1`, `x = x % mod`, then the loop. -/
def bin_pow (x n mod : Int) : Int :=
  bin_pow_loop 1 (x % mod) n mod

/-- Embedding of `totient(n)` from `src/Cryptography/snippets.py`:
`sum(gcd(i, n) == 1 for i in range(1, n))`.  `range(1, n)` is the list
`[1, ..., n-1]` (empty for `n ≤ 1`), and summing the booleans counts the
`i` with `gcd(i, n) == 1`. -/
def totient (n : Int) : Int :=
  (((List.range (n - 1).toNat).map (fun i : Nat => 1 + (i : Int))).countP
    (fun i => gcd i n == 1) : Nat)

/-- Embedding of `is_prime(num)` from `src/Cryptography/snippets.py`:
`False` for `num <= 1`, otherwise trial division
`for divisor in range(2, isqrt(num) + 1)` returning `False` on the first
divisor with `num % divisor == 0`, else `True`.  The `for` loop with an
early `return False` is the negation of `List.any` over that range
(`range(2, s + 1)` has `s + 1 - 2` elements). -/
def is_prime (num : Int) : Bool :=
  if num ≤ 1 then false
  else !((List.range' 2 (Nat.sqrt num.toNat + 1 - 2)).any
    (fun divisor => num % (divisor : Int) == 0))

/-- Embedding of the `while divisor * divisor <= num` loop of
`is_prime_optimized` from `src/Cryptography/snippets.py`: starting at
`divisor = 6` and stepping by 6, return `false` (the function's early
`return False`) when `num % (divisor - 1)` or `num % (divisor + 1)` is
zero, and `true` when the loop exits and control falls through to the
final return. -/
def wheel_loop (num : Int) (divisor : Int) : Bool :=
  if (divisor * divisor : Int) ≤ num then
    if num % (divisor - 1) == 0 || num % (divisor + 1) == 0 then false
    else wheel_loop num (divisor + 6)
  else true
termination_by (num + 1 - divisor).toNat
decreasing_by
  have hd : divisor ≤ divisor * divisor ∨ divisor ≤ 0 := by
    rcases le_or_lt divisor 0 with h | h
    · exact Or.inr h
    · exact Or.inl (le_mul_of_one_le_left (by omega) (by omega))
  have hsq : 0 ≤ divisor * divisor := mul_self_nonneg divisor
  omega

/-- Embedding of `is_prime_optimized(num)` from
`src/Cryptography/snippets.py`: `False` for `num <= 1`, `True` for
`num <= 3`, `False` when divisible by 2 or 3, then the 6k±1 wheel loop,
and finally `return isqrt(num) ** 2 != num`. -/
def is_prime_optimized (num : Int) : Bool :=
  if num ≤ 1 then false
  else if num ≤ 3 then true
  else if num % 2 == 0 || num % 3 == 0 then false
  else if !(wheel_loop num 6) then false
  else (Nat.sqrt num.toNat : Int) ^ 2 != num

/-- Variant of `is_prime_optimized` demanded by claim C4: identical to the
source function except that the final `return isqrt(num) ** 2 != num` is
replaced by the constant `True`. -/
def is_prime_optimized_final_true (num : Int) : Bool :=
  if num ≤ 1 then false
  else if num ≤ 3 then true
  else if num % 2 == 0 || num % 3 == 0 then false
  else if !(wheel_loop num 6) then false
  else true

/-- Embedding of `fermat_test(n, n_repeats)` from
`src/Cryptography/snippets.py`.  The `n_repeats` random draws
`randint(2, n - 2)` of the loop are passed explicitly as the list
`draws`; the loop returns `False` on the first draw `a` with
`bin_pow(a, n - 1, n) != 1`, so the function returns `true` exactly when
every draw passes.  Python's `not n & 1` tests evenness, i.e.
`n % 2 == 0`. -/
def fermat_test (n : Int) (draws : List Int) : Bool :=
  if n = 1 ∨ n % 2 = 0 then false
  else if n = 2 ∨ n = 3 then true
  else draws.all (fun a => bin_pow a (n - 1) n == 1)

/-- Embedding of `MOD = 10 ** 9 + 7` from
`src/Cryptography/practical_task_1.py`. -/
def MOD : Int := 10 ^ 9 + 7

/-- Embedding of `task4(a, b)` from `src/Cryptography/practical_task_1.py`:
`(b * bin_pow(a, totient(MOD) - 1, MOD)) % MOD`. -/
def task4 (a b : Int) : Int :=
  (b * bin_pow a (totient MOD - 1) MOD) % MOD

/-- Embedding of `task5(a, b)` from `src/Cryptography/practical_task_1.py`
with its default primality test `is_prime_optimized`:
`next((num for num in range(a, b + 1) if check_is_prime(num)), -1)`, the
first element of `[a, ..., b]` passing the test, else `-1`. -/
def task5 (a b : Int) : Int :=
  ((((List.range (b + 1 - a).toNat).map (fun i : Nat => a + (i : Int))).find?
    (fun num => is_prime_optimized num)).getD (-1))

/-- Embedding of `get_number_of_keys(bits)` from
`src/Blockchain and Decentralized Technologies/large_numbers.py`:
`2 ** bits`. -/
def get_number_of_keys (bits : Nat) : Nat := 2 ^ bits

/-- The digits of `n` in base 16, most significant first, lowercase,
empty for `n = 0`: the digit string Python's built-in `hex` produces
after its `0x` prefix (for positive `n`).  `Nat.digitChar` maps
`0, ..., 15` to `0-9a-f` exactly as CPython's hex formatting does. -/
def toHex (n : Nat) : List Char :=
  if h' : n = 0 then [] else toHex (n / 16) ++ [Nat.digitChar (n % 16)]
termination_by n
decreasing_by
  exact Nat.div_lt_self (Nat.pos_of_ne_zero h') (by omega)

/-- Embedding of Python's `hex(c)` for `c ≥ 0`: `0x` followed by the
base-16 digits of `c` without leading zeros, and `0x0` for `c = 0`. -/
def pyHex (c : Nat) : String :=
  "0x" ++ String.mk (if c = 0 then ['0'] else toHex c)

/-- Embedding of the loop body of `brute(bits, secret)` from
`src/Blockchain and Decentralized Technologies/large_numbers.py`:
`for candidate in range(0, get_number_of_keys(bits) + 1)` returning
`True` on the first candidate with `hex(candidate) == secret`, else
`False`.  The early-`return` scan is `List.any` over the candidate
range.  (In the source the function is wrapped by the `return_time`
decorator, which runs this body and returns the elapsed wall-clock
seconds instead of its boolean; real time has no shallow embedding, so
only the search itself is modelled.) -/
def brute (bits : Nat) (secret : String) : Bool :=
  (List.range (get_number_of_keys bits + 1)).any
    (fun candidate => pyHex candidate == secret)

/-- Rendering of one byte `b < 256` as exactly two lowercase hex digits,
as `binascii.hexlify` (hence `secrets.token_hex`) renders each random
byte, zero-padded. -/
def hexByte (b : Nat) : List Char :=
  [Nat.digitChar (b / 16), Nat.digitChar (b % 16)]

/-- Modelled from the spec: `secrets.token_hex(k)` (Python standard
library, not part of the repository) returns the hex rendering of `k`
cryptographically random bytes — two lowercase hex digits per byte.  The
random draw is passed explicitly as the byte list. -/
def token_hex (bytes : List Nat) : String :=
  String.mk ((bytes.map hexByte).flatten)

/-- Embedding of `get_secret_token(bits)` from
`src/Blockchain and Decentralized Technologies/large_numbers.py`:
`'0x' + secrets.token_hex(bits // 8)`, with the `bits // 8` random bytes
passed explicitly. -/
def get_secret_token (bytes : List Nat) : String :=
  "0x" ++ token_hex bytes

/-- The numeric value of a big-endian byte string: the integer whose hex
rendering (with leading zeros) `token_hex` produces. -/
def byteVal (bytes : List Nat) : Nat :=
  bytes.foldl (fun acc b => acc * 256 + b) 0

instance fact_prime_7919 : Fact (Nat.Prime 7919) := ⟨by norm_num⟩

/-! Helper lemmas about `Int.emod`: multiplying or raising to a power
commutes with reducing an operand modulo `n`. -/

theorem emod_mul_emod_left (a b n : Int) : (a % n * b) % n = (a * b) % n :=
  Int.ModEq.mul_right b (Int.emod_emod_of_dvd a dvd_rfl)

theorem emod_pow_emod (a : Int) (k : Nat) (n : Int) : (a % n) ^ k % n = a ^ k % n :=
  Int.ModEq.pow k (Int.emod_emod_of_dvd a dvd_rfl)

/-- Loop invariant of binary exponentiation: from state `(power, x, n)`
the loop returns `power * x ^ n` reduced modulo `mod`. -/
theorem bin_pow_loop_spec :
    ∀ (k : Nat) (p x n m : Int), 0 ≤ n → n.toNat ≤ k →
      bin_pow_loop p x n m = (p * x ^ n.toNat) % m := by
  intro k
  induction k with
  | zero =>
    intro p x n m hn hk
    have h0 : n = 0 := by omega
    subst h0
    rw [bin_pow_loop]
    norm_num
  | succ k ih =>
    intro p x n m hn hk
    rcases lt_or_le 0 n with h0 | h0
    · rw [bin_pow_loop, if_pos h0]
      by_cases h2 : n % 2 = 1
      · rw [if_pos h2, ih ((p * x) % m) x (n - 1) m (by omega) (by omega),
          emod_mul_emod_left]
        have ht : n.toNat = (n - 1).toNat + 1 := by omega
        rw [ht, pow_succ]
        ring_nf
      · rw [if_neg h2, ih p ((x ^ 2) % m) (n / 2) m (by omega) (by omega)]
        have h3 : (p * ((x ^ 2) % m) ^ (n / 2).toNat) % m
            = (p * (x ^ 2) ^ (n / 2).toNat) % m := by
          rw [Int.mul_emod, emod_pow_emod, ← Int.mul_emod]
        rw [h3, ← pow_mul]
        have ht : 2 * (n / 2).toNat = n.toNat := by omega
        rw [ht]
    · have h0' : n = 0 := by omega
      subst h0'
      rw [bin_pow_loop]
      norm_num

/-- `bin_pow x n mod` computes `x ^ n % mod` for every non-negative
exponent (any modulus; the source would raise on `mod = 0`, which no
claim exercises). -/
theorem bin_pow_spec (x n m : Int) (hn : 0 ≤ n) :
    bin_pow x n m = x ^ n.toNat % m := by
  rw [bin_pow, bin_pow_loop_spec n.toNat 1 (x % m) n m hn le_rfl, one_mul,
    emod_pow_emod]

/-- On non-negative inputs the embedded Euclidean loop computes the
mathematical greatest common divisor. -/
theorem gcd_eq_int_gcd :
    ∀ (k : Nat) (a b : Int), 0 ≤ a → 0 ≤ b → b.natAbs ≤ k →
      gcd a b = Int.gcd a b := by
  intro k
  induction k with
  | zero =>
    intro a b ha hb hk
    have h0 : b = 0 := by omega
    subst h0
    rw [gcd]
    simp [Int.gcd, Int.natAbs_of_nonneg ha]
  | succ k ih =>
    intro a b ha hb hk
    by_cases hb0 : b = 0
    · subst hb0
      rw [gcd]
      simp [Int.gcd, Int.natAbs_of_nonneg ha]
    · have hbpos : 0 < b := by omega
      have hr : 0 ≤ a % b := Int.emod_nonneg a hb0
      have hrlt : a % b < b := Int.emod_lt_of_pos a hbpos
      rw [gcd]
      simp only [hb0, dite_false]
      rw [ih b (a % b) hb hr (by omega)]
      -- `Int.gcd b (a % b) = Int.gcd a b` via the `Nat.gcd` recurrence.
      have ha' : a = ((a.toNat : Nat) : Int) := (Int.toNat_of_nonneg ha).symm
      have hb' : b = ((b.toNat : Nat) : Int) := (Int.toNat_of_nonneg hb).symm
      have hmod : a % b = ((a.toNat % b.toNat : Nat) : Int) := by
        rw [Int.ofNat_emod, ← ha', ← hb']
      have habs1 : Int.gcd b (a % b) = Nat.gcd b.toNat (a.toNat % b.toNat) := by
        unfold Int.gcd
        rw [hmod, Int.natAbs_ofNat, show b.natAbs = b.toNat by omega]
      have habs2 : Int.gcd a b = Nat.gcd a.toNat b.toNat := by
        unfold Int.gcd
        rw [show a.natAbs = a.toNat by omega, show b.natAbs = b.toNat by omega]
      rw [habs1, habs2, Nat.gcd_comm a.toNat b.toNat, Nat.gcd_rec b.toNat a.toNat,
        Nat.gcd_comm]

/-- Counting with one predicate equals counting with a pointwise equal
predicate. -/
theorem countP_congr_mem (l : List Int) (p q : Int → Bool)
    (h : ∀ a ∈ l, p a = q a) : l.countP p = l.countP q := by
  induction l with
  | nil => rfl
  | cons a l ih =>
    rw [List.countP_cons, List.countP_cons, h a (List.mem_cons_self a l),
      ih (fun x hx => h x (List.mem_cons_of_mem a hx))]

/-- The embedded `totient` counts the integers of `[1, n-1]` whose
mathematical gcd with `n` is 1. -/
theorem totient_card (n : Int) (hn : 1 ≤ n) :
    totient n
      = (((Finset.Icc 1 (n - 1)).filter (fun i => Int.gcd i n = 1)).card : Int) := by
  unfold totient
  set l : List Int := (List.range (n - 1).toNat).map (fun i : Nat => 1 + (i : Int))
    with hl
  have hnodup : l.Nodup := by
    refine List.Nodup.map ?_ (List.nodup_range _)
    intro i j hij
    have hij' : 1 + (i : Int) = 1 + (j : Int) := hij
    omega
  have hmem : ∀ x : Int, x ∈ l ↔ 1 ≤ x ∧ x ≤ n - 1 := by
    intro x
    simp only [hl, List.mem_map, List.mem_range]
    constructor
    · rintro ⟨j, hj, rfl⟩
      omega
    · intro hx
      exact ⟨(x - 1).toNat, by omega, by omega⟩
  have hpred : ∀ x ∈ l, (gcd x n == 1) = decide (Int.gcd x n = 1) := by
    intro x hx
    have h1 : 1 ≤ x := ((hmem x).1 hx).1
    rw [gcd_eq_int_gcd n.natAbs x n (by omega) (by omega) le_rfl]
    rcases eq_or_ne (Int.gcd x n) 1 with h | h
    · simp [h]
    · simp [h, Nat.cast_eq_one]
  have hfin : l.toFinset = Finset.Icc 1 (n - 1) := by
    ext x
    rw [List.mem_toFinset, hmem x, Finset.mem_Icc]
  have hq : l.countP (fun i => gcd i n == 1)
      = l.countP (fun i => decide (Int.gcd i n = 1)) := countP_congr_mem l _ _ hpred
  rw [hq, List.countP_eq_length_filter,
    ← List.toFinset_card_of_nodup (hnodup.filter (fun i => decide (Int.gcd i n = 1))),
    List.toFinset_filter, hfin]
  simp only [decide_eq_true_eq]

/-- The wheel loop exits immediately (and control falls through to the
final return) when `num < divisor ^ 2`. -/
theorem wheel_loop_exit (num divisor : Int) (h' : num < divisor * divisor) :
    wheel_loop num divisor = true := by
  rw [wheel_loop]
  rw [if_neg (by omega)]

/-- The wheel loop finds no divisor of 997 (its divisor candidates are
5, 7, 11, 13, 17, 19, 23, 25, 29, 31). -/
theorem wheel_loop_997 : wheel_loop 997 6 = true := by
  rw [wheel_loop]
  norm_num
  rw [wheel_loop]
  norm_num
  rw [wheel_loop]
  norm_num
  rw [wheel_loop]
  norm_num
  rw [wheel_loop]
  norm_num
  exact wheel_loop_exit 997 36 (by norm_num)

/-- Ground evaluation of `Nat.sqrt` (defined by well-founded recursion,
so not kernel-reducible) through its defining bounds. -/
theorem sqrt_eval (m s : Nat) (h1 : s * s ≤ m) (h2 : m < (s + 1) * (s + 1)) :
    Nat.sqrt m = s :=
  (Nat.eq_sqrt.mpr ⟨h1, h2⟩).symm

/-! Ground evaluations of `is_prime_optimized` at the inputs the claims
name.  Inputs that reach the wheel loop need its exit lemma first (the
loop is defined by well-founded recursion, which the kernel does not
evaluate); the remaining expression is then closed by `decide`. -/

theorem ipo_5 : is_prime_optimized 5 = true := by
  unfold is_prime_optimized
  rw [wheel_loop_exit 5 6 (by norm_num),
    show Int.toNat 5 = 5 from rfl, sqrt_eval 5 2 (by norm_num) (by norm_num)]
  decide

theorem ipo_25 : is_prime_optimized 25 = false := by
  unfold is_prime_optimized
  rw [wheel_loop_exit 25 6 (by norm_num),
    show Int.toNat 25 = 25 from rfl, sqrt_eval 25 5 (by norm_num) (by norm_num)]
  decide

theorem ipo_29 : is_prime_optimized 29 = true := by
  unfold is_prime_optimized
  rw [wheel_loop_exit 29 6 (by norm_num),
    show Int.toNat 29 = 29 from rfl, sqrt_eval 29 5 (by norm_num) (by norm_num)]
  decide

theorem ipo_35 : is_prime_optimized 35 = true := by
  unfold is_prime_optimized
  rw [wheel_loop_exit 35 6 (by norm_num),
    show Int.toNat 35 = 35 from rfl, sqrt_eval 35 5 (by norm_num) (by norm_num)]
  decide

theorem ipo_997 : is_prime_optimized 997 = true := by
  unfold is_prime_optimized
  rw [wheel_loop_997,
    show Int.toNat 997 = 997 from rfl, sqrt_eval 997 31 (by norm_num) (by norm_num)]
  decide

theorem ipoft_25 : is_prime_optimized_final_true 25 = true := by
  unfold is_prime_optimized_final_true
  rw [wheel_loop_exit 25 6 (by norm_num)]
  decide

theorem isp_35 : is_prime 35 = false := by
  unfold is_prime
  rw [show Int.toNat 35 = 35 from rfl, sqrt_eval 35 5 (by norm_num) (by norm_num)]
  decide

theorem isp_2 : is_prime 2 = true := by
  unfold is_prime
  rw [show Int.toNat 2 = 2 from rfl, sqrt_eval 2 1 (by norm_num) (by norm_num)]
  decide

theorem isp_3 : is_prime 3 = true := by
  unfold is_prime
  rw [show Int.toNat 3 = 3 from rfl, sqrt_eval 3 1 (by norm_num) (by norm_num)]
  decide

theorem isp_5 : is_prime 5 = true := by
  unfold is_prime
  rw [show Int.toNat 5 = 5 from rfl, sqrt_eval 5 2 (by norm_num) (by norm_num)]
  decide

theorem isp_997 : is_prime 997 = true := by
  unfold is_prime
  rw [show Int.toNat 997 = 997 from rfl, sqrt_eval 997 31 (by norm_num) (by norm_num)]
  decide

theorem isp_4 : is_prime 4 = false := by
  unfold is_prime
  rw [show Int.toNat 4 = 4 from rfl, sqrt_eval 4 2 (by norm_num) (by norm_num)]
  decide

theorem isp_100 : is_prime 100 = false := by
  unfold is_prime
  rw [show Int.toNat 100 = 100 from rfl, sqrt_eval 100 10 (by norm_num) (by norm_num)]
  decide

theorem isp_1000 : is_prime 1000 = false := by
  unfold is_prime
  rw [show Int.toNat 1000 = 1000 from rfl,
    sqrt_eval 1000 31 (by norm_num) (by norm_num)]
  decide

/-! Ground evaluations of `task5`. -/

theorem task5_eval_35_36 : task5 35 36 = 35 := by
  unfold task5
  rw [show ((36 : Int) + 1 - 35).toNat = 2 by decide]
  rw [show (List.range 2).map (fun i : Nat => (35 : Int) + (i : Int)) = [35, 36]
    by decide]
  rw [List.find?_cons_of_pos _ ipo_35]
  rfl

theorem task5_eval_24_28 : task5 24 28 = -1 := by
  unfold task5
  rw [show ((28 : Int) + 1 - 24).toNat = 5 by decide]
  rw [show (List.range 5).map (fun i : Nat => (24 : Int) + (i : Int))
      = [24, 25, 26, 27, 28] by decide]
  rw [List.find?_cons_of_neg _ (by decide), List.find?_cons_of_neg _ (by simp [ipo_25]),
    List.find?_cons_of_neg _ (by decide), List.find?_cons_of_neg _ (by decide),
    List.find?_cons_of_neg _ (by decide)]
  rfl

theorem task5_eval_24_29 : task5 24 29 = 29 := by
  unfold task5
  rw [show ((29 : Int) + 1 - 24).toNat = 6 by decide]
  rw [show (List.range 6).map (fun i : Nat => (24 : Int) + (i : Int))
      = [24, 25, 26, 27, 28, 29] by decide]
  rw [List.find?_cons_of_neg _ (by decide), List.find?_cons_of_neg _ (by simp [ipo_25]),
    List.find?_cons_of_neg _ (by decide), List.find?_cons_of_neg _ (by decide),
    List.find?_cons_of_neg _ (by decide), List.find?_cons_of_pos _ ipo_29]
  rfl

/-- Claim C1: `is_prime` and `is_prime_optimized` are claimed to agree on
every `n` in `[0, 10000]`.  They do not: at `n = 35 = 5 * 7` trial
division answers `false` while the wheel test answers `true` — the wheel
loop's guard `divisor * divisor <= num` with `divisor = 6` (i.e. `36 ≤ 35`)
fails before the divisor candidates 5 and 7 are ever tried.  The
particular values the claim names (2, 3, 5, 997 prime; 1, 4, 100, 1000
not) are all classified alike by both functions. -/
theorem primality_tests_disagree_at_35 :
    (is_prime 35 = false ∧ is_prime_optimized 35 = true ∧ ¬ Nat.Prime 35)
    ∧ (is_prime 2 = true ∧ is_prime 3 = true ∧ is_prime 5 = true
        ∧ is_prime 997 = true)
    ∧ (is_prime 1 = false ∧ is_prime 4 = false ∧ is_prime 100 = false
        ∧ is_prime 1000 = false)
    ∧ (is_prime_optimized 2 = true ∧ is_prime_optimized 3 = true
        ∧ is_prime_optimized 5 = true ∧ is_prime_optimized 997 = true)
    ∧ (is_prime_optimized 1 = false ∧ is_prime_optimized 4 = false
        ∧ is_prime_optimized 100 = false ∧ is_prime_optimized 1000 = false) :=
  ⟨⟨isp_35, ipo_35, by norm_num⟩,
    ⟨isp_2, isp_3, isp_5, isp_997⟩,
    ⟨by decide, isp_4, isp_100, isp_1000⟩,
    ⟨by decide, by decide, ipo_5, ipo_997⟩,
    ⟨by decide, by decide, by decide, by decide⟩⟩

/-- Claim C4 is false: `num = 25` reaches the final return statement of
`is_prime_optimized` (it is ≥ 5, odd, not divisible by 3, and the wheel
loop finds no divisor since its guard `36 ≤ 25` fails immediately), yet
`25 = 5²` is a perfect square, and replacing the final return with the
constant `true` changes the function's result at 25. -/
theorem square_check_counterexample :
    (25 : Int) % 2 ≠ 0 ∧ (25 : Int) % 3 ≠ 0 ∧ wheel_loop 25 6 = true
    ∧ Nat.sqrt 25 ^ 2 = 25
    ∧ is_prime_optimized_final_true 25 ≠ is_prime_optimized 25 :=
  ⟨by decide, by decide, wheel_loop_exit 25 6 (by norm_num),
    by rw [sqrt_eval 25 5 (by norm_num) (by norm_num)]; norm_num,
    by rw [ipoft_25, ipo_25]; decide⟩

/-- Claim C4 amended: the final perfect-square comparison of
`is_prime_optimized` is not redundant.  The composite perfect square 25
reaches the final return (the wheel loop's guard `36 ≤ 25` fails before
the divisor 5 is tried), and the comparison is exactly what makes the
function reject it: with the final return replaced by `true`, the
function would wrongly accept 25. -/
theorem square_check_amended :
    is_prime_optimized 25 = false ∧ is_prime_optimized_final_true 25 = true
    ∧ ¬ Nat.Prime 25 :=
  ⟨ipo_25, ipoft_25, by norm_num⟩

/-- Claim C6: `task5` is claimed to return the smallest prime of `[a, b]`
or `-1`.  Its named examples hold (`task5 24 28 = -1`,
`task5 24 29 = 29`), but the universal claim fails at `(a, b) = (35, 36)`:
the interval contains no prime, yet `task5` returns 35 (composite,
`5 * 7`) because its default test `is_prime_optimized` misclassifies 35. -/
theorem task5_not_always_smallest_prime :
    task5 35 36 = 35 ∧ ¬ Nat.Prime 35
    ∧ (∀ num : Int, 35 ≤ num → num ≤ 36 → ¬ Nat.Prime num.toNat)
    ∧ task5 24 28 = -1 ∧ task5 24 29 = 29 := by
  refine ⟨task5_eval_35_36, by norm_num, ?_, task5_eval_24_28, task5_eval_24_29⟩
  intro num h1 h2
  have h3 : num = 35 ∨ num = 36 := by omega
  rcases h3 with h3 | h3 <;> subst h3
  · rw [show Int.toNat 35 = 35 from rfl]
    norm_num
  · rw [show Int.toNat 36 = 36 from rfl]
    norm_num

/-- Claim C3: for every integer `a`, exponent `n ≥ 0` and modulus
`m ≥ 1`, `bin_pow a n m` is `a ^ n mod m`; in particular
`bin_pow a 0 m = 1 mod m` and `bin_pow a n 1 = 0`. -/
theorem bin_pow_correct (a n m : Int) (hn : 0 ≤ n) (hm : 1 ≤ m) :
    bin_pow a n m = a ^ n.toNat % m ∧ bin_pow a 0 m = 1 % m
    ∧ bin_pow a n 1 = 0 := by
  refine ⟨bin_pow_spec a n m hn, ?_, ?_⟩
  · rw [bin_pow_spec a 0 m le_rfl]
    norm_num
  · rw [bin_pow_spec a n 1 hn, Int.emod_one]

/-- Witness for C3 at `a = 3`, `n = 5`, `m = 7`. -/
theorem bin_pow_correct_witness :
    bin_pow 3 5 7 = 3 ^ (5 : Int).toNat % 7 ∧ bin_pow 3 0 7 = 1 % 7
    ∧ bin_pow 3 5 1 = 0 :=
  bin_pow_correct 3 5 7 (by norm_num) (by norm_num)

/-- Claim C8: on non-negative inputs, `gcd a b` divides both arguments,
every common divisor is at most `gcd a b` when not both are zero, and
`gcd a 0 = a`. -/
theorem gcd_correct (a b c : Int) (ha : 0 ≤ a) (hb : 0 ≤ b) :
    gcd a b ∣ a ∧ gcd a b ∣ b ∧ gcd a 0 = a
    ∧ (c ∣ a → c ∣ b → ¬(a = 0 ∧ b = 0) → c ≤ gcd a b) := by
  have hg : gcd a b = Int.gcd a b := gcd_eq_int_gcd b.natAbs a b ha hb le_rfl
  refine ⟨?_, ?_, ?_, ?_⟩
  · rw [hg]
    exact Int.gcd_dvd_left
  · rw [hg]
    exact Int.gcd_dvd_right
  · rw [gcd]
    simp
  · intro hca hcb hz
    rw [hg]
    have hdvd : c ∣ (Int.gcd a b : Int) := Int.dvd_gcd hca hcb
    have hgz : Int.gcd a b ≠ 0 := fun h0 => hz (Int.gcd_eq_zero_iff.mp h0)
    exact Int.le_of_dvd (by exact_mod_cast Nat.pos_of_ne_zero hgz) hdvd

/-- Witness for C8 at `a = 12`, `b = 18`, `c = 6`. -/
theorem gcd_correct_witness :
    gcd 12 18 ∣ 12 ∧ gcd 12 18 ∣ 18 ∧ gcd 12 0 = 12
    ∧ ((6 : Int) ∣ 12 → (6 : Int) ∣ 18 → ¬((12 : Int) = 0 ∧ (18 : Int) = 0)
        → 6 ≤ gcd 12 18) :=
  gcd_correct 12 18 6 (by norm_num) (by norm_num)

/-- Claim C9: for `n ≥ 1`, `totient n` counts the integers of `[1, n-1]`
coprime with `n`; in particular `totient 1 = 0`, `totient 7 = 6` and
`totient 9 = 6`. -/
theorem totient_counts_coprimes (n : Int) (hn : 1 ≤ n) :
    totient n = (((Finset.Icc 1 (n - 1)).filter (fun i => Int.gcd i n = 1)).card : Int)
    ∧ totient 1 = 0 ∧ totient 7 = 6 ∧ totient 9 = 6 := by
  refine ⟨totient_card n hn, ?_, ?_, ?_⟩
  · rw [totient_card 1 le_rfl]
    decide
  · rw [totient_card 7 (by norm_num)]
    decide
  · rw [totient_card 9 (by norm_num)]
    decide

/-- Witness for C9 at `n = 7`. -/
theorem totient_counts_coprimes_witness :
    totient 7
      = (((Finset.Icc 1 (7 - 1)).filter (fun i : Int => Int.gcd i 7 = 1)).card : Int)
    ∧ totient 1 = 0 ∧ totient 7 = 6 ∧ totient 9 = 6 :=
  totient_counts_coprimes 7 (by norm_num)

/-- Claim C2: `fermat_test` on the known primes 2, 3, 7919 under every
possible sequence of witness draws (each `randint(2, n-2)` draw lies in
`[2, n-2]`).  The claim fails at `n = 2`: the even-number guard
`not n & 1` precedes the `n == 2 or n == 3` base case, so
`fermat_test 2` returns `false` (that base-case branch is dead code for
2, contradicting its evident intent).  For 3 and 7919 the claim's
expectation holds: 3 is a base case, and every witness in `[2, 7917]`
passes Fermat's little theorem for the prime 7919. -/
theorem fermat_test_known_primes (ws : List Int)
    (h' : ∀ a ∈ ws, 2 ≤ a ∧ a ≤ 7917) :
    fermat_test 2 ws = false ∧ fermat_test 3 ws = true
    ∧ fermat_test 7919 ws = true := by
  refine ⟨by norm_num [fermat_test], by norm_num [fermat_test], ?_⟩
  unfold fermat_test
  rw [if_neg (by norm_num), if_neg (by norm_num), List.all_eq_true]
  intro a ha
  obtain ⟨h2a, h7917⟩ := h' a ha
  rw [beq_iff_eq, show (7919 : Int) - 1 = 7918 from rfl,
    bin_pow_spec a 7918 7919 (by norm_num),
    show (7918 : Int).toNat = 7918 from rfl]
  have ha0 : (a : ZMod 7919) ≠ 0 := by
    intro hz
    rw [ZMod.intCast_zmod_eq_zero_iff_dvd] at hz
    have := Int.le_of_dvd (by omega) hz
    omega
  have hflt : (a : ZMod 7919) ^ 7918 = 1 := by
    have h := ZMod.pow_card_sub_one_eq_one ha0
    norm_num at h
    exact h
  have hcast : ((a ^ 7918 : Int) : ZMod 7919) = ((1 : Int) : ZMod 7919) := by
    push_cast
    exact hflt
  have hmod := (ZMod.intCast_eq_intCast_iff _ _ _).mp hcast
  unfold Int.ModEq at hmod
  norm_num at hmod
  exact hmod

/-- Witness for C2's theorem at the draw list `[2]`. -/
theorem fermat_test_known_primes_witness :
    fermat_test 2 [2] = false ∧ fermat_test 3 [2] = true
    ∧ fermat_test 7919 [2] = true :=
  fermat_test_known_primes [2] (by decide)

/-- Reducing the first argument modulo the second does not change the
mathematical gcd. -/
theorem int_gcd_emod (a M : Int) : Int.gcd (a % M) M = Int.gcd a M := by
  apply Nat.dvd_antisymm
  · have hd1 : ((Int.gcd (a % M) M : Nat) : Int) ∣ a % M := Int.gcd_dvd_left
    have hd2 : ((Int.gcd (a % M) M : Nat) : Int) ∣ M := Int.gcd_dvd_right
    have h1 : ((Int.gcd (a % M) M : Nat) : Int) ∣ a := by
      have heq := Int.emod_add_ediv a M
      calc ((Int.gcd (a % M) M : Nat) : Int) ∣ a % M + M * (a / M) :=
            dvd_add hd1 (hd2.mul_right _)
        _ = a := heq
    have h3 : ((Int.gcd (a % M) M : Nat) : Int) ∣ ((Int.gcd a M : Nat) : Int) :=
      Int.dvd_gcd h1 hd2
    exact_mod_cast h3
  · have hd1 : ((Int.gcd a M : Nat) : Int) ∣ a := Int.gcd_dvd_left
    have hd2 : ((Int.gcd a M : Nat) : Int) ∣ M := Int.gcd_dvd_right
    have h1 : ((Int.gcd a M : Nat) : Int) ∣ a % M := by
      rw [Int.emod_def]
      exact dvd_sub hd1 (hd2.mul_right _)
    have h3 : ((Int.gcd a M : Nat) : Int) ∣ ((Int.gcd (a % M) M : Nat) : Int) :=
      Int.dvd_gcd h1 hd2
    exact_mod_cast h3

/-- For `n ≥ 2` the embedded `totient` computes Euler's totient of `n`:
the count over `[1, n-1]` equals Mathlib's count over `[0, n-1]`, since
0 is not coprime with `n ≥ 2`. -/
theorem totient_eq_nat_totient (n : Int) (hn : 2 ≤ n) :
    totient n = (Nat.totient n.toNat : Int) := by
  rw [totient_card n (by omega)]
  congr 1
  rw [Nat.totient_eq_card_coprime]
  apply Finset.card_nbij' (fun i : Int => i.toNat) (fun j : Nat => (j : Int))
  · intro a ha
    simp only [Finset.mem_filter, Finset.mem_Icc] at ha ⊢
    simp only [Finset.mem_range]
    obtain ⟨⟨h1, h2⟩, hg⟩ := ha
    refine ⟨by omega, ?_⟩
    have hdef : Int.gcd a n = Nat.gcd a.natAbs n.natAbs := rfl
    unfold Nat.Coprime
    rw [Nat.gcd_comm]
    rw [hdef] at hg
    rwa [show a.natAbs = a.toNat by omega, show n.natAbs = n.toNat by omega] at hg
  · intro j hj
    simp only [Finset.mem_filter, Finset.mem_range] at hj
    simp only [Finset.mem_filter, Finset.mem_Icc]
    obtain ⟨hjlt, hcop⟩ := hj
    have hj1 : 1 ≤ j := by
      rcases Nat.eq_zero_or_pos j with h0 | h0
      · exfalso
        subst h0
        unfold Nat.Coprime at hcop
        rw [Nat.gcd_zero_right] at hcop
        omega
      · exact h0
    refine ⟨⟨by omega, by omega⟩, ?_⟩
    have hdef : Int.gcd (j : Int) n = Nat.gcd j n.toNat := by
      unfold Int.gcd
      rw [Int.natAbs_ofNat, show n.natAbs = n.toNat by omega]
    rw [hdef, Nat.gcd_comm]
    exact hcop
  · intro a ha
    simp only [Finset.mem_filter, Finset.mem_Icc] at ha
    omega
  · intro j hj
    simp only [Finset.mem_filter, Finset.mem_range] at hj
    omega

/-- Claim C7: when `gcd(a, 10^9 + 7) = 1`, `task4 a b` lies in
`[0, 10^9 + 7)` and solves `a * x ≡ b (mod 10^9 + 7)` — the modular
inverse of `a` obtained through Euler's theorem (the code raises `a` to
`totient(MOD) - 1`, and `a ^ totient(MOD) ≡ 1` for `a` coprime with
`MOD`). -/
theorem task4_correct (a b : Int) (h' : Int.gcd a MOD = 1) :
    0 ≤ task4 a b ∧ task4 a b < MOD ∧ Int.ModEq MOD (a * task4 a b) b := by
  have hMpos : (0 : Int) < MOD := by norm_num [DLab.MOD]
  have hM : MOD = (1000000007 : Int) := by norm_num [DLab.MOD]
  unfold task4
  set B := bin_pow a (totient MOD - 1) MOD with hB
  refine ⟨Int.emod_nonneg _ (by omega), Int.emod_lt_of_pos _ hMpos, ?_⟩
  set t := Nat.totient 1000000007 with htdef
  have ht1 : 1 ≤ t := Nat.totient_pos.mpr (by norm_num)
  have hMt : MOD.toNat = 1000000007 := by
    norm_num [DLab.MOD]
    rfl
  have htot : totient MOD = (t : Int) := by
    rw [totient_eq_nat_totient MOD (by norm_num [DLab.MOD]), hMt]
  have hBval : B = a ^ (t - 1) % MOD := by
    rw [hB, bin_pow_spec a (totient MOD - 1) MOD (by rw [htot]; omega), htot,
      show ((t : Int) - 1).toNat = t - 1 by omega]
  have h1 : Int.ModEq MOD ((b * B) % MOD) (b * B) := Int.emod_emod_of_dvd _ dvd_rfl
  have h2 : Int.ModEq MOD (a * ((b * B) % MOD)) (a * (b * B)) := h1.mul_left a
  have h3 : Int.ModEq MOD B (a ^ (t - 1)) := by
    rw [hBval]
    exact Int.emod_emod_of_dvd _ dvd_rfl
  -- Euler's theorem for `a` coprime with `MOD`, through `ZMod 1000000007`.
  have hcop : Nat.Coprime (a % MOD).toNat 1000000007 := by
    have hge : Int.gcd (a % MOD) MOD = 1 := by rw [int_gcd_emod, h']
    have habs : (a % MOD).natAbs = (a % MOD).toNat := by
      have := Int.emod_nonneg a (by omega : MOD ≠ 0)
      omega
    unfold Int.gcd at hge
    rw [habs, show MOD.natAbs = 1000000007 by norm_num [DLab.MOD]] at hge
    exact hge
  have hunit := ZMod.pow_totient (ZMod.unitOfCoprime (a % MOD).toNat hcop)
  have hval : ((ZMod.unitOfCoprime (a % MOD).toNat hcop : (ZMod 1000000007)ˣ)
      : ZMod 1000000007) = ((a % MOD).toNat : ZMod 1000000007) :=
    ZMod.coe_unitOfCoprime _ hcop
  have hz1 : (((a % MOD).toNat : Nat) : ZMod 1000000007) ^ t = 1 := by
    have hcongr := congrArg (fun u : (ZMod 1000000007)ˣ => (u : ZMod 1000000007)) hunit
    simp only [Units.val_pow_eq_pow_val, Units.val_one] at hcongr
    rw [hval] at hcongr
    exact hcongr
  have hz2 : ((a : Int) : ZMod 1000000007) = (((a % MOD).toNat : Nat) : ZMod 1000000007) := by
    have hcast : (((a % MOD).toNat : Nat) : Int) = a % MOD :=
      Int.toNat_of_nonneg (Int.emod_nonneg a (by omega))
    rw [show (((a % MOD).toNat : Nat) : ZMod 1000000007)
        = ((((a % MOD).toNat : Nat) : Int) : ZMod 1000000007) by push_cast; rfl]
    rw [hcast]
    rw [ZMod.intCast_eq_intCast_iff]
    have hme : Int.ModEq MOD (a % MOD) a := Int.emod_emod_of_dvd _ dvd_rfl
    rw [hM] at hme
    exact hme.symm
  have hfltInt : Int.ModEq MOD (a ^ t) 1 := by
    have hz3 : ((a : Int) : ZMod 1000000007) ^ t = 1 := by
      rw [hz2]
      exact hz1
    have hcast : ((a ^ t : Int) : ZMod 1000000007) = ((1 : Int) : ZMod 1000000007) := by
      push_cast
      exact hz3
    have hm := (ZMod.intCast_eq_intCast_iff _ _ _).mp hcast
    have hm2 : Int.ModEq (1000000007 : Int) (a ^ t) 1 := hm
    rw [hM]
    exact hm2
  have h4 : Int.ModEq MOD (a * (b * B)) (a * (b * a ^ (t - 1))) :=
    (h3.mul_left b).mul_left a
  have h5 : a * (b * a ^ (t - 1)) = b * a ^ (t - 1 + 1) := by ring
  have h6 : t - 1 + 1 = t := by omega
  have h7 : Int.ModEq MOD (b * a ^ t) (b * 1) := hfltInt.mul_left b
  have h8 : Int.ModEq MOD (a * (b * B)) b := by
    refine h4.trans ?_
    rw [h5, h6]
    refine h7.trans ?_
    rw [mul_one]
  exact h2.trans h8

/-- Witness for C7 at `a = 1`, `b = 0`. -/
theorem task4_correct_witness :
    0 ≤ task4 1 0 ∧ task4 1 0 < MOD ∧ Int.ModEq MOD (1 * task4 1 0) 0 :=
  task4_correct 1 0 rfl

/-! Helper lemmas about the brute-force search and hex rendering. -/

theorem brute_eq_true_iff (bits : Nat) (secret : String) :
    brute bits secret = true ↔ ∃ c : Nat, c ≤ 2 ^ bits ∧ pyHex c = secret := by
  unfold brute get_number_of_keys
  rw [List.any_eq_true]
  constructor
  · rintro ⟨c, hc, hm⟩
    rw [List.mem_range] at hc
    rw [beq_iff_eq] at hm
    exact ⟨c, by omega, hm⟩
  · rintro ⟨c, hc, hm⟩
    exact ⟨c, List.mem_range.mpr (by omega), by rwa [beq_iff_eq]⟩

theorem brute_eq_false_iff (bits : Nat) (secret : String) :
    brute bits secret = false ↔ ∀ c : Nat, c ≤ 2 ^ bits → pyHex c ≠ secret := by
  constructor
  · intro h c hcle heq
    have htrue : brute bits secret = true :=
      (brute_eq_true_iff bits secret).mpr ⟨c, hcle, heq⟩
    rw [h] at htrue
    exact Bool.false_ne_true htrue
  · intro h
    rcases hb : brute bits secret with _ | _
    · rfl
    · exfalso
      obtain ⟨c, hcle, heq⟩ := (brute_eq_true_iff bits secret).mp hb
      exact h c hcle heq

theorem toHex_zero : toHex 0 = [] := by
  rw [toHex]
  simp

theorem toHex_ne_nil (n : Nat) (h' : n ≠ 0) : toHex n ≠ [] := by
  rw [toHex]
  simp [h']

theorem digitChar_ne_zero (c : Nat) (h1 : c < 16) (h2 : c ≠ 0) :
    Nat.digitChar c ≠ '0' := by
  interval_cases c <;> revert h2 <;> decide

/-- The leading hex digit Python's `hex` prints for a positive integer is
never `'0'`. -/
theorem toHex_head_ne_zero :
    ∀ n : Nat, n ≠ 0 → ∀ c, (toHex n).head? = some c → c ≠ '0' := by
  intro n
  induction n using Nat.strong_induction_on with
  | _ n ih =>
    intro hn c hc
    rw [toHex, dif_neg hn] at hc
    by_cases h16 : n / 16 = 0
    · rw [h16, toHex_zero, List.nil_append, List.head?_cons] at hc
      have hcv : c = Nat.digitChar (n % 16) := (Option.some_inj.mp hc).symm
      rw [hcv]
      exact digitChar_ne_zero (n % 16) (by omega) (by omega)
    · have hne := toHex_ne_nil (n / 16) h16
      rcases hl : toHex (n / 16) with _ | ⟨d0, rest⟩
      · exact absurd hl hne
      · rw [hl, List.cons_append, List.head?_cons] at hc
        have hcv : c = d0 := (Option.some_inj.mp hc).symm
        rw [hcv]
        exact ih (n / 16) (Nat.div_lt_self (by omega) (by omega)) h16 d0
          (by rw [hl]; rfl)

theorem mk_append (a b : List Char) :
    String.mk a ++ String.mk b = String.mk (a ++ b) := rfl

theorem pyHex_mk (c : Nat) :
    pyHex c = String.mk ('0' :: 'x' :: (if c = 0 then ['0'] else toHex c)) := by
  unfold pyHex
  rw [show ("0x" : String) = String.mk ['0', 'x'] from rfl, mk_append]
  rfl

theorem get_secret_token_mk (bytes : List Nat) :
    get_secret_token bytes = String.mk ('0' :: 'x' :: (bytes.map hexByte).flatten) := by
  unfold get_secret_token token_hex
  rw [show ("0x" : String) = String.mk ['0', 'x'] from rfl, mk_append]
  rfl

/-- Python's `hex` never produces a digit string with a leading zero
(other than for 0 itself, whose rendering `0x0` is shorter), so no
candidate's rendering equals a string `0x0...` with at least one digit
after the leading zero. -/
theorem pyHex_ne_leading_zero (c : Nat) (ds : List Char) (hds : ds ≠ []) :
    pyHex c ≠ String.mk ('0' :: 'x' :: '0' :: ds) := by
  intro h
  rw [pyHex_mk] at h
  have hdata := congrArg String.data h
  have htail : (if c = 0 then ['0'] else toHex c) = '0' :: ds :=
    congrArg (fun l => l.tail.tail) hdata
  by_cases hc : c = 0
  · rw [if_pos hc] at htail
    injection htail with _ h3
    exact hds h3.symm
  · rw [if_neg hc] at htail
    exact toHex_head_ne_zero c hc '0' (by rw [htail]; rfl) rfl

theorem foldl_byte_bound :
    ∀ (l : List Nat) (acc : Nat), (∀ b ∈ l, b < 256) →
      l.foldl (fun acc b => acc * 256 + b) acc < (acc + 1) * 256 ^ l.length := by
  intro l
  induction l with
  | nil =>
    intro acc h
    simpa using Nat.lt_succ_self acc
  | cons b bs ih =>
    intro acc h
    rw [List.foldl_cons, List.length_cons]
    have hb : b < 256 := h b (List.mem_cons_self b bs)
    have hrec := ih (acc * 256 + b) (fun x hx => h x (List.mem_cons_of_mem b hx))
    refine lt_of_lt_of_le hrec ?_
    have h1 : acc * 256 + b + 1 ≤ (acc + 1) * 256 := by
      have : (acc + 1) * 256 = acc * 256 + 256 := by ring
      omega
    calc (acc * 256 + b + 1) * 256 ^ bs.length
        ≤ ((acc + 1) * 256) * 256 ^ bs.length :=
          Nat.mul_le_mul_right _ h1
      _ = (acc + 1) * 256 ^ (bs.length + 1) := by ring

/-- The numeric value of a `bits // 8`-byte secret lies inside the
searched key space `[0, 2 ^ bits]`. -/
theorem byteVal_le (bits : Nat) (bytes : List Nat) (hlen : bytes.length = bits / 8)
    (hb : ∀ b ∈ bytes, b < 256) : byteVal bytes ≤ 2 ^ bits := by
  have h1 : byteVal bytes < 256 ^ bytes.length := by
    have h := foldl_byte_bound bytes 0 hb
    simpa [byteVal] using h
  have h2 : (256 : Nat) ^ bytes.length = 2 ^ (8 * bytes.length) := by
    rw [pow_mul]
    norm_num
  have h3 : (2 : Nat) ^ (8 * bytes.length) ≤ 2 ^ bits := by
    refine Nat.pow_le_pow_right (by norm_num) ?_
    omega
  omega

/-- Claim C5: the brute-force search returns `true` exactly when some
candidate in the full inclusive range `[0, 2 ^ bits]` has `hex` rendering
equal to the secret, and `false` exactly when none has. -/
theorem brute_search_correct (bits : Nat) (secret : String) :
    (brute bits secret = true ↔ ∃ c : Nat, c ≤ 2 ^ bits ∧ pyHex c = secret)
    ∧ (brute bits secret = false ↔ ∀ c : Nat, c ≤ 2 ^ bits → pyHex c ≠ secret) :=
  ⟨brute_eq_true_iff bits secret, brute_eq_false_iff bits secret⟩

/-- Claim C10: a secret token whose first hex digit is `'0'` (i.e. whose
first random byte is below 16) can never be found by `brute`: Python's
`hex` renders candidates without leading zeros while `token_hex` pads
each byte to two digits, so no candidate's rendering equals the secret —
even though the secret's numeric value lies inside the searched range
`[0, 2 ^ bits]`. -/
theorem leading_zero_secret_never_found (bits b0 : Nat) (rest : List Nat)
    (hlen : (b0 :: rest).length = bits / 8)
    (hbytes : ∀ b ∈ b0 :: rest, b < 256) (hb0 : b0 < 16) :
    (∀ c : Nat, pyHex c ≠ get_secret_token (b0 :: rest))
    ∧ byteVal (b0 :: rest) ≤ 2 ^ bits
    ∧ brute bits (get_secret_token (b0 :: rest)) = false := by
  have htok : get_secret_token (b0 :: rest)
      = String.mk ('0' :: 'x' :: '0'
          :: (Nat.digitChar (b0 % 16) :: (rest.map hexByte).flatten)) := by
    rw [get_secret_token_mk, List.map_cons, List.flatten_cons,
      show hexByte b0 = [Nat.digitChar (b0 / 16), Nat.digitChar (b0 % 16)] from rfl,
      Nat.div_eq_of_lt hb0]
    rfl
  have hnomatch : ∀ c : Nat, pyHex c ≠ get_secret_token (b0 :: rest) := by
    intro c
    rw [htok]
    exact pyHex_ne_leading_zero c _ (by simp)
  refine ⟨hnomatch, byteVal_le bits (b0 :: rest) hlen hbytes, ?_⟩
  rw [brute_eq_false_iff]
  intro c _
  exact hnomatch c

/-- Witness for C10 at `bits = 8` and the byte draw `[10]`, whose token is
the claim's example secret `0x0a`. -/
theorem leading_zero_secret_witness :
    (∀ c : Nat, pyHex c ≠ ("0x0a" : String)) ∧ (10 : Nat) ≤ 2 ^ 8
    ∧ brute 8 ("0x0a") = false := by
  have h := leading_zero_secret_never_found 8 10 [] (by decide) (by decide) (by decide)
  have htok : get_secret_token [10] = ("0x0a" : String) := rfl
  have hval : byteVal [10] = 10 := rfl
  rw [htok, hval] at h
  exact h

end DLab
